import Mathlib

/-!
Shallow embedding of pgaskin/kfwproxy: the in-memory bounded cache from
cache.go, the proxy handlers (the older proxyHandler in proxy.go and the
newer ProxyHandler), and the batch aggregation endpoint in kfwproxy.go.

Time is modelled as Int (a Go time.Time instant; t.After(u) is t > u);
durations are Int as well (seconds or nanoseconds are irrelevant to the
claims, only the additive structure matters). Byte slices are List Nat.
-/

namespace Kfwproxy

/-- Go struct memoryCacheEntry from cache.go: creation time, expiry,
data bytes, and the extra string (content type). -/
structure memoryCacheEntry where
  ct : Int
  exp : Int
  buf : List Nat
  extra : String
deriving Repr, DecidableEq

/-- Go struct memoryCache from cache.go (the mutex is omitted: each
operation is modelled as an atomic state transformer). The entry map is
modelled as an association list with unique keys. -/
structure memoryCache where
  Limit : Int
  size : Int
  entries : List (String × memoryCacheEntry)
  hits : Int
  puts : Int
  misses : Int
deriving Repr, DecidableEq

/-- Go map read of the entries map, as in `ent, f := c.entries[id]`. -/
def lookupEnt (es : List (String × memoryCacheEntry)) (id : String) :
    Option memoryCacheEntry :=
  (es.find? (fun p => p.1 == id)).map Prod.snd

/-- Go map assignment `c.entries[id] = e`: the new binding replaces any
existing binding for the same key. -/
def updateEnt (es : List (String × memoryCacheEntry)) (id : String)
    (e : memoryCacheEntry) : List (String × memoryCacheEntry) :=
  (id, e) :: es.filter (fun p => !(p.1 == id))

/-- Sum of the byte lengths of the live entries (what cache.go tracks in
the running `c.size`, when its accounting is correct). -/
def sumCost (es : List (String × memoryCacheEntry)) : Int :=
  (es.map (fun p => ((p.2.buf.length : Int)))).sum

/-- Go method memoryCache.Get, cache.go lines 200-220, with the current
time explicit. Misses when the key is absent or `time.Now().After(ent.exp)`
and increments `misses`; on a hit increments `hits` and returns
`(ent.buf, ent.extra, ent.exp, ent.ct)`. -/
def memoryCache.Get (c : memoryCache) (now : Int) (id : String) :
    Option (List Nat × String × Int × Int) × memoryCache :=
  match lookupEnt c.entries id with
  | none => (none, { c with misses := c.misses + 1 })
  | some ent =>
    if now > ent.exp then (none, { c with misses := c.misses + 1 })
    else (some (ent.buf, ent.extra, ent.exp, ent.ct), { c with hits := c.hits + 1 })

/-- Go method memoryCache.Put, cache.go lines 173-198 (the duration
parameter is called `exp` in the source). Rejects only when a positive
limit is configured and `len(buf)` alone exceeds it; Go's zero time on
rejection is modelled as 0. On acceptance it stores
`{ct: now, exp: now+exp, buf, extra}`, adds `len(buf)` to the running
size (without subtracting a replaced entry's size), increments `puts`,
and returns the computed expiry. -/
def memoryCache.Put (c : memoryCache) (now : Int) (id : String) (buf : List Nat)
    (extra : String) (exp : Int) : (Int × Bool) × memoryCache :=
  if c.Limit > 0 ∧ (buf.length : Int) > c.Limit then ((0, false), c)
  else
    ((now + exp, true),
      { c with puts := c.puts + 1,
               entries := updateEnt c.entries id ⟨now, now + exp, buf, extra⟩,
               size := c.size + (buf.length : Int) })

/-- Ascending insertion by creation time, realising the customSort
ordering used by memoryCache.Clean (its `Lessf` is
`times[i].Before(times[j])`). -/
def insertByCt (e : String × memoryCacheEntry) :
    List (String × memoryCacheEntry) → List (String × memoryCacheEntry)
  | [] => [e]
  | f :: rest => if e.2.ct < f.2.ct then e :: f :: rest else f :: insertByCt e rest

/-- Sort the surviving entries ascending by creation time (cache.go lines
139-157). -/
def sortByCt (es : List (String × memoryCacheEntry)) :
    List (String × memoryCacheEntry) :=
  es.foldr insertByCt []

/-- The capacity-eviction loop of memoryCache.Clean, cache.go lines
158-167: delete entries in ascending creation-time order, breaking as soon
as the running size drops strictly below the limit. Returns the surviving
entries and the final running size. -/
def evictOldest (limit : Int) :
    List (String × memoryCacheEntry) → Int → List (String × memoryCacheEntry) × Int
  | [], size => ([], size)
  | e :: rest, size =>
    let size' := size - (e.2.buf.length : Int)
    if size' < limit then (rest, size')
    else evictOldest limit rest size'

/-- Go method memoryCache.Clean, cache.go lines 118-171: first delete every
entry whose expiry has passed (`time.Now().After(entry.exp)`), adjusting the
running size; then, when a positive limit is still exceeded, evict entries
in ascending creation-time order until the size is back under the limit. -/
def memoryCache.Clean (c : memoryCache) (now : Int) : memoryCache :=
  let kept := c.entries.filter (fun p => !(decide (now > p.2.exp)))
  let removed := c.entries.filter (fun p => decide (now > p.2.exp))
  let size1 := c.size - sumCost removed
  if c.Limit > 0 ∧ size1 > c.Limit then
    let r := evictOldest c.Limit (sortByCt kept) size1
    { c with entries := r.1, size := r.2 }
  else { c with entries := kept, size := size1 }

/-! Kernel-reducible string utilities mirroring the Go standard-library
calls made by the sources (strings.TrimSpace, strings.HasPrefix,
strings.Split, strings.SplitN, strings.TrimPrefix, strconv.Atoi). -/

/-- Go strings.TrimSpace: drop whitespace from both ends (the ASCII
whitespace classes suffice for every header string the code handles). -/
def trimSpace (s : String) : String :=
  ⟨((s.data.dropWhile Char.isWhitespace).reverse.dropWhile Char.isWhitespace).reverse⟩

/-- Go strings.HasPrefix on the underlying character lists. -/
def hasPre (p s : String) : Bool :=
  p.data.isPrefixOf s.data

/-- Split a character list at every occurrence of `c` (Go strings.Split
with a one-character separator). -/
def splitChar (c : Char) : List Char → List (List Char)
  | [] => [[]]
  | x :: xs =>
    match splitChar c xs with
    | [] => [[]]
    | g :: gs => if x = c then [] :: g :: gs else (x :: g) :: gs

/-- Go strings.Split(s, ",") as used on Cache-Control headers. -/
def splitComma (s : String) : List String :=
  (splitChar ',' s.data).map (fun l => ⟨l⟩)

/-- Everything before and after the first '=' in a character list. -/
def splitFirstEq : List Char → Option (List Char × List Char)
  | [] => none
  | x :: xs =>
    if x = '=' then some ([], xs)
    else (splitFirstEq xs).map (fun p => (x :: p.1, p.2))

/-- Go strings.SplitN(s, "=", 2), projected to the pair (before, after the
first '='). When s contains no '=' the Go code would index out of range,
but every call is guarded by a HasPrefix "max-age=" check, so that case is
unreachable; it is modelled as an empty second component, which Atoi
rejects just like the guard prevents. -/
def splitN2eq (s : String) : String × String :=
  match splitFirstEq s.data with
  | none => (s, "")
  | some p => (⟨p.1⟩, ⟨p.2⟩)

/-- Value of a nonempty all-digit character list, as strconv.Atoi reads it. -/
def digitsVal (l : List Char) : Option Nat :=
  if l ≠ [] ∧ l.all Char.isDigit
  then some (l.foldl (fun a c => a * 10 + (c.toNat - 48)) 0)
  else none

/-- Go strconv.Atoi: optional sign followed by at least one digit, error
otherwise (64-bit overflow, which Atoi also reports as an error, is not
modelled; the callers skip errored values either way). -/
def atoi (s : String) : Option Int :=
  match s.data with
  | '+' :: rest => (digitsVal rest).map Int.ofNat
  | '-' :: rest => (digitsVal rest).map (fun n => -(n : Int))
  | l => (digitsVal l).map Int.ofNat

/-- Go strings.TrimPrefix(x, "/"): drop a single leading slash when present. -/
def trimOneSlash (x : String) : String :=
  if hasPre "/" x then x.drop 1 else x

/-! The batch aggregation endpoint from kfwproxy.go (lines 246-352). -/

/-- Result of one in-process sub-request as captured by the response
recorder: the HTTP status, the Cache-Control header ("" when absent), and
the body text. The per-item Header field (returned only when h=1) carries
no behavior and is not modelled. -/
structure SubResult where
  code : Int
  cc : String
  body : String
deriving Repr, DecidableEq

/-- Inner directive loop of the batch cache-control reduction, kfwproxy.go
lines 313-325: for a directive with prefix "max-age=", parse its value;
a parse error is skipped, a value below or equal to 0 marks the batch
non-cacheable, and a smaller value lowers the running max-age. -/
def ccStep (st : Int × Bool) (ccs : String) : Int × Bool :=
  if hasPre "max-age=" (trimSpace ccs) then
    match atoi (trimSpace (splitN2eq ccs).2) with
    | none => st
    | some c => if c ≤ 0 then (st.1, true) else if c < st.1 then (c, st.2) else st
  else st

/-- Outer per-item step of the reduction, kfwproxy.go lines 309-327: once
non-cacheable, nothing more is examined; a non-200 item status makes the
batch non-cacheable; otherwise a non-empty Cache-Control header is split
on commas and folded through ccStep. -/
def reduceStep (st : Int × Bool) (r : SubResult) : Int × Bool :=
  if st.2 then st
  else if r.code ≠ 200 then (st.1, true)
  else if r.cc = "" then st
  else (splitComma r.cc).foldl ccStep st

/-- The whole reduction: start from the batch endpoint's default TTL in
seconds (`cache, noCache := int((*cacheTime).Seconds()), false`) and fold
over the recorded sub-results. -/
def reduceItems (ttl0 : Int) (rs : List SubResult) : Int × Bool :=
  rs.foldl reduceStep (ttl0, false)

/-- Format of a Go time value under time.Format(http.TimeFormat); modelled
as an injective rendering of the instant (only equality and shape of the
produced header values matter to the claims). -/
def fmtTime (t : Int) : String :=
  "ts:" ++ toString t

/-- Response envelope written by the batch handler. The Content-Type
header (always application/json) and the error-message bodies of the early
reject paths carry no claim-relevant behavior and are not modelled. -/
structure BatchResponse where
  status : Int
  items : List SubResult
  cacheControl : Option String
  pragma : Option String
  expiresHdr : Option String
deriving Repr, DecidableEq

/-- The batch handler from kfwproxy.go lines 246-352, with the in-process
dispatch of one sub-request abstracted as a function from the re-prefixed
sub-path to its recorded result. `batched` is whether the request context
already carries the batch recursion marker; `xs` is the x query parameter
list; `hd` is the h query parameter. Checks, in source order: recursion
marker (403), empty list (400), more than 20 sub-paths (403), invalid h
(400); then every sub-path is dispatched, the cache lifetimes are reduced,
and the envelope is written with status 200. -/
def batchHandler (cacheTimeSecs now : Int) (dispatch : String → SubResult)
    (batched : Bool) (xs : List String) (hd : String) : BatchResponse :=
  if batched then ⟨403, [], none, none, none⟩
  else if xs.length = 0 then ⟨400, [], none, none, none⟩
  else if xs.length > 20 then ⟨403, [], none, none, none⟩
  else if hd ≠ "" ∧ hd ≠ "1" then ⟨400, [], none, none, none⟩
  else
    let res := xs.map (fun x => dispatch ("/api.kobobooks.com/" ++ trimOneSlash x))
    let red := reduceItems cacheTimeSecs res
    if red.2 then ⟨200, res, some "no-cache", some "no-cache", some "0"⟩
    else ⟨200, res, some ("max-age=" ++ toString red.1), none, some (fmtTime (now + red.1))⟩

/-! The RistrettoCache wrapper from cache.go (lines 18-59). The dgraph-io
ristretto store it delegates to is an external dependency, not part of this
repository, so its behavior is modelled from the spec. -/

/-- Go struct ristrettoEnt from cache.go: the value the wrapper stores in
the external bounded store. -/
structure ristrettoEnt where
  ct : Int
  exp : Int
  data : List Nat
  extra : String
deriving Repr, DecidableEq

/-- Modelled from the spec: the external ristretto bounded-cost store that
RistrettoCache delegates to (the dgraph-io/ristretto library is not in this
repository). Entries carry the stored value together with the store-level
expiration derived from the ttl given to SetWithTTL; the store keeps hit
and miss counters and a configured maximum cost. -/
structure ristrettoStore where
  entries : List (String × (ristrettoEnt × Int))
  maxCost : Int
  hits : Int
  misses : Int
deriving Repr, DecidableEq

/-- Modelled from the spec: a read of the external store. Per the spec,
"expiration is still honored per-entry" — a present entry whose store
expiration has passed is a miss — and the store counts hits and misses. -/
def ristrettoStore.get (s : ristrettoStore) (now : Int) (key : String) :
    Option ristrettoEnt × ristrettoStore :=
  match (s.entries.find? (fun p => p.1 == key)).map Prod.snd with
  | none => (none, { s with misses := s.misses + 1 })
  | some v =>
    if now > v.2 then (none, { s with misses := s.misses + 1 })
    else (some v.1, { s with hits := s.hits + 1 })

/-- Modelled from the spec: SetWithTTL admission in the external store —
per the spec, a Put "rejects … when ttl <= 0, or when the entry's byte
cost alone exceeds the configured capacity"; an admitted entry replaces
any entry with the same key and expires at now + ttl. -/
def ristrettoStore.setWithTTL (s : ristrettoStore) (now : Int) (key : String)
    (v : ristrettoEnt) (cost ttl : Int) : Bool × ristrettoStore :=
  if ttl ≤ 0 then (false, s)
  else if cost > s.maxCost then (false, s)
  else
    (true, { s with entries := (key, (v, now + ttl)) :: s.entries.filter (fun p => !(p.1 == key)) })

/-- Go method RistrettoCache.Get, cache.go lines 52-59: delegate to the
store and unpack the ristrettoEnt fields on a hit; Go's zero values on a
miss are modelled as `none`. -/
def RistrettoCache.Get (s : ristrettoStore) (now : Int) (key : String) :
    Option (List Nat × String × Int × Int) × ristrettoStore :=
  match ristrettoStore.get s now key with
  | (some ent, s') => (some (ent.data, ent.extra, ent.exp, ent.ct), s')
  | (none, s') => (none, s')

/-- Go method RistrettoCache.Put, cache.go lines 41-50: record ct = now and
exp = now + ttl inside the stored value, hand the value to SetWithTTL with
cost `len(data)`, and return the computed expiry with the admission result. -/
def RistrettoCache.Put (s : ristrettoStore) (now : Int) (key : String)
    (data : List Nat) (extra : String) (ttl : Int) : (Int × Bool) × ristrettoStore :=
  let ct := now
  let exp := now + ttl
  let r := ristrettoStore.setWithTTL s now key ⟨ct, exp, data, extra⟩ (data.length : Int) ttl
  ((exp, r.1), r.2)

/-! The two proxy handlers: proxyHandler from proxy.go and the newer
ProxyHandler.ServeHTTP from the unnamed source file (part_007). Both are
modelled after their method checks (the modelled method is GET or HEAD),
with the cache probe result, the upstream fetch outcome and the cache
store result supplied as inputs. -/

inductive Method where
  | GET
  | HEAD
deriving Repr, DecidableEq

/-- Seconds value written into Cache-Control by the cache-hit and
store-success paths of proxy.go (lines 42 and 109):
`time.Now().Sub(exp).Seconds()`, that is, now minus the expiry. -/
def proxyHitMaxAge (now exp : Int) : Int := now - exp

/-- Seconds value written into Cache-Control by ProxyHandler.ServeHTTP
(part_007 line 122): `exp.Sub(time.Now()).Seconds()`, the remaining
lifetime exp minus now. -/
def serveMaxAge (now exp : Int) : Int := exp - now

/-- Response written by the older proxyHandler of proxy.go; each field is a
header it may set (`none` when the handler never sets it). -/
structure HttpResponse where
  status : Int
  body : List Nat
  contentLength : Option String
  contentType : Option String
  cacheControl : Option String
  expiresHdr : Option String
  marker : Option String
deriving Repr, DecidableEq

/-- The older proxyHandler, proxy.go lines 39-122, after its OPTIONS and
405 checks. `cacheRes` is the cache.Get result, `upstream` the upstream
response (status, body, Content-Type; `none` for a URL or transport
error), `putRes` what cache.Put returned on the 200 store path. On a
cache hit (lines 39-48) the handler writes the stored body with
`w.Write(buf)` regardless of the method and sets no Content-Length; the
error paths write status 500 (their error-text bodies are not modelled);
on the upstream path the body is suppressed only for HEAD. -/
def proxyHandler (now : Int) (method : Method)
    (cacheRes : Option (List Nat × String × Int × Int))
    (upstream : Option (Int × List Nat × String))
    (putRes : Int × Bool) : HttpResponse :=
  match cacheRes with
  | some r =>
    { status := 200, body := r.1, contentLength := none, contentType := some r.2.1,
      cacheControl := some ("max-age=" ++ toString (proxyHitMaxAge now r.2.2.1)),
      expiresHdr := some (fmtTime r.2.2.1), marker := some (fmtTime r.2.2.2) }
  | none =>
    match upstream with
    | none =>
      { status := 500, body := [], contentLength := none, contentType := none,
        cacheControl := none, expiresHdr := none, marker := none }
    | some u =>
      let base : HttpResponse :=
        { status := u.1,
          body := if method = Method.HEAD then [] else u.2.1,
          contentLength := some (toString u.2.1.length),
          contentType := some u.2.2,
          cacheControl := none, expiresHdr := none, marker := none }
      if u.1 = 200 then
        if putRes.2 then
          { base with
              cacheControl := some ("max-age=" ++ toString (proxyHitMaxAge now putRes.1)),
              expiresHdr := some (fmtTime putRes.1),
              marker := some "new" }
        else base
      else { base with cacheControl := some "no-cache", marker := some "no" }

/-- Response written by ProxyHandler.ServeHTTP of part_007. The stored
response headers that are copied back verbatim (lines 108-110) carry no
claim-relevant behavior and are not modelled as individual fields. -/
structure ServeResponse where
  status : Int
  body : List Nat
  contentLength : Option String
  marker : Option String
  cacheControl : Option String
  expiresHdr : Option String
deriving Repr, DecidableEq

/-- Final write stage of ProxyHandler.ServeHTTP, part_007 lines 114-132:
set the X-KFWProxy-Cached marker, then either no-cache or
Expires/Cache-Control from the expiry, then for HEAD a zero Content-Length
and no body, and for GET the body with its exact length. The panic guard
of line 119 (a non-"no" outcome with a zero expiry) is unreachable from
the handler's own flow and is not modelled. -/
def serveWrite (now : Int) (method : Method) (status : Int) (buf : List Nat)
    (cached : String) (exp : Int) : ServeResponse :=
  { status := status,
    body := if method = Method.HEAD then [] else buf,
    contentLength := some (if method = Method.HEAD then "0" else toString buf.length),
    marker := some cached,
    cacheControl := some (if cached = "no" then "no-cache"
                          else "max-age=" ++ toString (serveMaxAge now exp)),
    expiresHdr := if cached = "no" then none else some (fmtTime exp) }

/-- ProxyHandler.ServeHTTP, part_007 lines 40-133, after its OPTIONS and
405 checks. `cacheConfigured` is whether p.Cache is set, `cacheRes` the
Cache.Get result (buf, stored headers as an opaque string, expiry,
creation time), `upstream` the upstream outcome (`none` for a transport
error, answered with 502 and no marker), `putRes` the Cache.Put result on
the 200 store path, `cacheTTL` the configured p.CacheTTL. A hit serves the
entry with marker = formatted creation time; a stored fetch gets marker
"new" with the Put expiry; a rejected store gets marker "nospace" with
expiry now + cacheTTL; a non-200 or cacheless response gets marker "no". -/
def ServeHTTP (now : Int) (method : Method) (cacheConfigured : Bool)
    (cacheRes : Option (List Nat × String × Int × Int))
    (upstream : Option (Int × List Nat))
    (putRes : Int × Bool) (cacheTTL : Int) : ServeResponse :=
  match (if cacheConfigured then cacheRes else none) with
  | some r =>
    serveWrite now method 200 r.1 (fmtTime r.2.2.2) r.2.2.1
  | none =>
    match upstream with
    | none =>
      { status := 502, body := [], contentLength := none, marker := none,
        cacheControl := none, expiresHdr := none }
    | some u =>
      if u.1 = 200 ∧ cacheConfigured then
        if putRes.2 then serveWrite now method u.1 u.2 "new" putRes.1
        else serveWrite now method u.1 u.2 "nospace" (now + cacheTTL)
      else serveWrite now method u.1 u.2 "no" 0

/-- Concrete scenario for the eviction-order claim: entries A, B and C of
four bytes each inserted at times 1, 2 and 3 with a far-away expiry, into
a cache limited to 10 bytes, so that a sweep must evict exactly one entry. -/
def cABC : memoryCache :=
  (memoryCache.Put (memoryCache.Put (memoryCache.Put ⟨10, 0, [], 0, 0, 0⟩
    1 "A" [0, 0, 0, 0] "" 100).2
    2 "B" [0, 0, 0, 0] "" 100).2
    3 "C" [0, 0, 0, 0] "" 100).2

/-- One mutating operation on the size-bounded cache: a Put with its call
arguments, or a Clean sweep, each at an explicit time. -/
inductive CacheOp where
  | put (now : Int) (id : String) (buf : List Nat) (extra : String) (ttl : Int)
  | clean (now : Int)
deriving Repr, DecidableEq

/-- Apply one operation to a cache state (the Put result value is
discarded; only the state matters here). -/
def applyOp (c : memoryCache) : CacheOp → memoryCache
  | .put now id buf extra ttl => (memoryCache.Put c now id buf extra ttl).2
  | .clean now => memoryCache.Clean c now

/-- Run a sequence of operations from a starting state. -/
def runOps (c : memoryCache) (ops : List CacheOp) : memoryCache :=
  ops.foldl applyOp c

/-- A Cache-Control string carrying exactly one directive that parses to
the max-age value v. -/
def ccParsesTo (s : String) (v : Int) : Prop :=
  splitComma s = [s]
  ∧ hasPre "max-age=" (trimSpace s) = true
  ∧ atoi (trimSpace (splitN2eq s).2) = some v

instance (s : String) (v : Int) : Decidable (ccParsesTo s v) := by
  unfold ccParsesTo
  infer_instance

end Kfwproxy



namespace Kfwproxy

/-! Helper lemmas about the memoryCache model. -/

theorem sumCost_nil : sumCost [] = 0 := rfl

theorem sumCost_cons (p : String × memoryCacheEntry) (es : List (String × memoryCacheEntry)) :
    sumCost (p :: es) = (p.2.buf.length : Int) + sumCost es := by
  simp [sumCost]

theorem sumCost_filter_split (q : String × memoryCacheEntry → Bool)
    (es : List (String × memoryCacheEntry)) :
    sumCost (es.filter q) + sumCost (es.filter (fun p => !(q p))) = sumCost es := by
  induction es with
  | nil => simp [sumCost_nil]
  | cons p es ih =>
    cases hq : q p <;>
      simp [List.filter_cons, hq, sumCost_cons] <;> omega

theorem evictOldest_mem (limit : Int) :
    ∀ (es : List (String × memoryCacheEntry)) (size : Int)
      (p : String × memoryCacheEntry),
      p ∈ (evictOldest limit es size).1 → p ∈ es := by
  intro es
  induction es with
  | nil => intro size p hp; simp [evictOldest] at hp
  | cons e rest ih =>
    intro size p hp
    simp only [evictOldest] at hp
    split at hp
    · exact List.mem_cons_of_mem _ hp
    · exact List.mem_cons_of_mem _ (ih _ p hp)

theorem evictOldest_spec (limit : Int) :
    ∀ (es : List (String × memoryCacheEntry)) (size : Int),
      sumCost es ≤ size →
      sumCost (evictOldest limit es size).1 ≤ (evictOldest limit es size).2 ∧
      ((evictOldest limit es size).1 = [] ∨ (evictOldest limit es size).2 < limit) := by
  intro es
  induction es with
  | nil =>
    intro size h
    refine ⟨?_, Or.inl rfl⟩
    rw [sumCost_nil] at h
    exact h
  | cons e rest ih =>
    intro size h
    rw [sumCost_cons] at h
    by_cases hlt : size - (e.2.buf.length : Int) < limit
    · have hdef : evictOldest limit (e :: rest) size
          = (rest, size - (e.2.buf.length : Int)) := by
        simp [evictOldest, hlt]
      rw [hdef]
      refine ⟨?_, Or.inr hlt⟩
      show sumCost rest ≤ size - (e.2.buf.length : Int)
      omega
    · have hdef : evictOldest limit (e :: rest) size
          = evictOldest limit rest (size - (e.2.buf.length : Int)) := by
        simp [evictOldest, hlt]
      rw [hdef]
      exact ih _ (by omega)

theorem insertByCt_perm (e : String × memoryCacheEntry) :
    ∀ l : List (String × memoryCacheEntry), (insertByCt e l).Perm (e :: l) := by
  intro l
  induction l with
  | nil => simp [insertByCt]
  | cons f rest ih =>
    simp only [insertByCt]
    split
    · exact List.Perm.refl _
    · exact (ih.cons f).trans (List.Perm.swap e f rest)

theorem sortByCt_perm (es : List (String × memoryCacheEntry)) :
    (sortByCt es).Perm es := by
  induction es with
  | nil => simp [sortByCt]
  | cons e rest ih =>
    have h1 : sortByCt (e :: rest) = insertByCt e (sortByCt rest) := rfl
    rw [h1]
    exact (insertByCt_perm e (sortByCt rest)).trans (ih.cons e)

theorem sumCost_perm {l1 l2 : List (String × memoryCacheEntry)} (h : l1.Perm l2) :
    sumCost l1 = sumCost l2 := by
  unfold sumCost
  exact (h.map _).sum_eq

theorem lookup_updateEnt_self (es : List (String × memoryCacheEntry)) (id : String)
    (e : memoryCacheEntry) : lookupEnt (updateEnt es id e) id = some e := by
  simp [lookupEnt, updateEnt, List.find?_cons]

theorem find?_filter_ne (es : List (String × memoryCacheEntry)) (id id' : String)
    (h : id' ≠ id) :
    (es.filter (fun p => !(p.1 == id))).find? (fun p => p.1 == id')
      = es.find? (fun p => p.1 == id') := by
  induction es with
  | nil => rfl
  | cons p es ih =>
    by_cases hpid : p.1 = id
    · have h1 : (p.1 == id) = true := beq_iff_eq.mpr hpid
      have h2 : (p.1 == id') = false := by
        refine beq_eq_false_iff_ne.mpr ?_
        rw [hpid]; exact fun hc => h hc.symm
      simp [List.filter_cons, h1, List.find?_cons, h2, ih]
    · have h1 : (p.1 == id) = false := beq_eq_false_iff_ne.mpr hpid
      cases h2 : (p.1 == id') with
      | true => simp [List.filter_cons, h1, List.find?_cons, h2]
      | false => simp [List.filter_cons, h1, List.find?_cons, h2, ih]

theorem lookup_updateEnt_ne (es : List (String × memoryCacheEntry)) (id id' : String)
    (e : memoryCacheEntry) (h : id' ≠ id) :
    lookupEnt (updateEnt es id e) id' = lookupEnt es id' := by
  have h1 : (id == id') = false := beq_eq_false_iff_ne.mpr (fun hc => h hc.symm)
  simp [lookupEnt, updateEnt, List.find?_cons, h1, find?_filter_ne es id id' h]

end Kfwproxy

namespace Kfwproxy

/-- C1: for every key, Get returns not-found when the key is absent or the
current time is past the stored entry's expiry (lazy expiration at read
time, no sweep needed), incrementing the miss counter; on a hit it
increments the hit counter and returns the stored bytes, content type,
expiry and creation timestamps. This holds for memoryCache.Get and, with
the external ristretto store modelled from the spec, for
RistrettoCache.Get. -/
theorem C1_get_lazy_expiration :
    (∀ (c : memoryCache) (now : Int) (id : String),
      (lookupEnt c.entries id = none →
        (memoryCache.Get c now id).1 = none
        ∧ (memoryCache.Get c now id).2.misses = c.misses + 1
        ∧ (memoryCache.Get c now id).2.hits = c.hits)
      ∧ (∀ ent, lookupEnt c.entries id = some ent → now > ent.exp →
          (memoryCache.Get c now id).1 = none
          ∧ (memoryCache.Get c now id).2.misses = c.misses + 1
          ∧ (memoryCache.Get c now id).2.hits = c.hits)
      ∧ (∀ ent, lookupEnt c.entries id = some ent → ¬ now > ent.exp →
          (memoryCache.Get c now id).1 = some (ent.buf, ent.extra, ent.exp, ent.ct)
          ∧ (memoryCache.Get c now id).2.hits = c.hits + 1
          ∧ (memoryCache.Get c now id).2.misses = c.misses))
    ∧ (∀ (s : ristrettoStore) (now : Int) (key : String),
      ((s.entries.find? (fun p => p.1 == key)).map Prod.snd = none →
        (RistrettoCache.Get s now key).1 = none
        ∧ (RistrettoCache.Get s now key).2.misses = s.misses + 1
        ∧ (RistrettoCache.Get s now key).2.hits = s.hits)
      ∧ (∀ (v : ristrettoEnt) (sexp : Int),
          (s.entries.find? (fun p => p.1 == key)).map Prod.snd = some (v, sexp) →
          sexp = v.exp →
          (now > v.exp →
            (RistrettoCache.Get s now key).1 = none
            ∧ (RistrettoCache.Get s now key).2.misses = s.misses + 1
            ∧ (RistrettoCache.Get s now key).2.hits = s.hits)
          ∧ (¬ now > v.exp →
            (RistrettoCache.Get s now key).1 = some (v.data, v.extra, v.exp, v.ct)
            ∧ (RistrettoCache.Get s now key).2.hits = s.hits + 1
            ∧ (RistrettoCache.Get s now key).2.misses = s.misses))) := by
  constructor
  · intro c now id
    refine ⟨?_, ?_, ?_⟩
    · intro h
      simp [memoryCache.Get, h]
    · intro ent h hexp
      simp [memoryCache.Get, h, hexp]
    · intro ent h hexp
      simp [memoryCache.Get, h, hexp]
  · intro s now key
    constructor
    · intro h
      simp [RistrettoCache.Get, ristrettoStore.get, h]
    · intro v sexp h hse
      subst hse
      constructor
      · intro hexp
        simp [RistrettoCache.Get, ristrettoStore.get, h, hexp]
      · intro hexp
        simp [RistrettoCache.Get, ristrettoStore.get, h, hexp]

theorem C1_get_lazy_expiration_witness :
    lookupEnt [("k", ⟨1, 5, [7], "ct"⟩)] "k" = some ⟨1, 5, [7], "ct"⟩
    ∧ (11 : Int) > (5 : Int)
    ∧ (memoryCache.Get ⟨100, 1, [("k", ⟨1, 5, [7], "ct"⟩)], 2, 3, 4⟩ 11 "k").1 = none
    ∧ (memoryCache.Get ⟨100, 1, [("k", ⟨1, 5, [7], "ct"⟩)], 2, 3, 4⟩ 11 "k").2.misses = 5 := by
  refine ⟨by decide, by decide, ?_, ?_⟩
  · exact ((C1_get_lazy_expiration.1 ⟨100, 1, [("k", ⟨1, 5, [7], "ct"⟩)], 2, 3, 4⟩ 11 "k").2.1
      ⟨1, 5, [7], "ct"⟩ (by decide) (by decide)).1
  · have h := ((C1_get_lazy_expiration.1 ⟨100, 1, [("k", ⟨1, 5, [7], "ct"⟩)], 2, 3, 4⟩ 11 "k").2.1
      ⟨1, 5, [7], "ct"⟩ (by decide) (by decide)).2.1
    simpa using h

/-- C2: the claim that the recorded running total size always equals the
sum of the live entries' byte lengths after a mutating operation fails on
the code: memoryCache.Put adds the new entry's length without subtracting
the replaced entry's, so putting one byte twice under the same key leaves
size = 2 while only one 1-byte entry is live. -/
theorem C2_size_drift_on_replace :
    ((memoryCache.Put (memoryCache.Put ⟨100, 0, [], 0, 0, 0⟩ 0 "k" [7] "a" 10).2
        1 "k" [9] "a" 10).2).size = 2
    ∧ sumCost ((memoryCache.Put (memoryCache.Put ⟨100, 0, [], 0, 0, 0⟩ 0 "k" [7] "a" 10).2
        1 "k" [9] "a" 10).2).entries = 1
    ∧ ((memoryCache.Put (memoryCache.Put ⟨100, 0, [], 0, 0, 0⟩ 0 "k" [7] "a" 10).2
        1 "k" [9] "a" 10).2).size
      ≠ sumCost ((memoryCache.Put (memoryCache.Put ⟨100, 0, [], 0, 0, 0⟩ 0 "k" [7] "a" 10).2
        1 "k" [9] "a" 10).2).entries := by
  refine ⟨by decide, by decide, by decide⟩

/-- C3 counterexample: memoryCache.Put does not reject a non-positive ttl;
with ttl = 0 (and with ttl = -3) on an empty cache with limit 100 it
returns accepted, while the claim requires not-accepted. -/
theorem C3_put_accepts_nonpositive_ttl :
    ((memoryCache.Put ⟨100, 0, [], 0, 0, 0⟩ 5 "k" [1, 2] "x" 0).1) = (5, true)
    ∧ ((memoryCache.Put ⟨100, 0, [], 0, 0, 0⟩ 5 "k" [1, 2] "x" (-3)).1).2 = true := by
  exact ⟨by decide, by decide⟩

end Kfwproxy

namespace Kfwproxy

/-- C3 amended: memoryCache.Put does not examine the ttl; it returns
not-accepted exactly when a positive limit is configured and len(data)
alone exceeds it, and rejection leaves the cache unchanged. On acceptance
it records createdAt = now and expiresAt = now + ttl, replaces any
existing entry at the key without touching other keys, adds len(data) to
the running total, increments the puts counter, and returns the computed
expiry; an accepted entry with ttl <= 0 is already expired, so any later
Get of that key misses. (The cost-based wrapper delegates admission,
including ttl handling, to the external ristretto store.) -/
theorem C3_put_admission_amended :
    ∀ (c : memoryCache) (now : Int) (id : String) (buf : List Nat)
      (extra : String) (ttl : Int),
      (c.Limit > 0 → (buf.length : Int) > c.Limit →
        memoryCache.Put c now id buf extra ttl = ((0, false), c))
      ∧ (¬(c.Limit > 0 ∧ (buf.length : Int) > c.Limit) →
          (memoryCache.Put c now id buf extra ttl).1 = (now + ttl, true)
          ∧ (memoryCache.Put c now id buf extra ttl).2.puts = c.puts + 1
          ∧ (memoryCache.Put c now id buf extra ttl).2.size = c.size + (buf.length : Int)
          ∧ lookupEnt (memoryCache.Put c now id buf extra ttl).2.entries id
              = some ⟨now, now + ttl, buf, extra⟩
          ∧ (∀ id', id' ≠ id →
              lookupEnt (memoryCache.Put c now id buf extra ttl).2.entries id'
                = lookupEnt c.entries id')
          ∧ (ttl ≤ 0 → ∀ now', now < now' →
              (memoryCache.Get (memoryCache.Put c now id buf extra ttl).2 now' id).1
                = none)) := by
  intro c now id buf extra ttl
  constructor
  · intro h1 h2
    simp [memoryCache.Put, h1, h2]
  · intro h
    have hput : memoryCache.Put c now id buf extra ttl
        = ((now + ttl, true),
           { c with puts := c.puts + 1,
                    entries := updateEnt c.entries id ⟨now, now + ttl, buf, extra⟩,
                    size := c.size + (buf.length : Int) }) := by
      simp [memoryCache.Put, h]
    refine ⟨by rw [hput], by rw [hput], by rw [hput], ?_, ?_, ?_⟩
    · rw [hput]
      exact lookup_updateEnt_self c.entries id _
    · intro id' hne
      rw [hput]
      exact lookup_updateEnt_ne c.entries id id' _ hne
    · intro httl now' hnow
      rw [hput]
      have hl : lookupEnt (updateEnt c.entries id ⟨now, now + ttl, buf, extra⟩) id
          = some ⟨now, now + ttl, buf, extra⟩ := lookup_updateEnt_self c.entries id _
      have hexp : now' > now + ttl := by omega
      simp [memoryCache.Get, hl, hexp]

theorem C3_put_admission_amended_witness :
    ¬((⟨10, 0, [], 0, 0, 0⟩ : memoryCache).Limit > 0
        ∧ (([1, 2] : List Nat).length : Int) > (⟨10, 0, [], 0, 0, 0⟩ : memoryCache).Limit)
    ∧ (memoryCache.Put ⟨10, 0, [], 0, 0, 0⟩ 5 "k" [1, 2] "x" 0).1 = (5, true)
    ∧ (memoryCache.Get (memoryCache.Put ⟨10, 0, [], 0, 0, 0⟩ 5 "k" [1, 2] "x" 0).2 6 "k").1
        = none := by
  have h := C3_put_admission_amended ⟨10, 0, [], 0, 0, 0⟩ 5 "k" [1, 2] "x" 0
  refine ⟨by decide, ?_, ?_⟩
  · have h1 := (h.2 (by decide)).1
    simpa using h1
  · exact (h.2 (by decide)).2.2.2.2.2 (by decide) 6 (by decide)

/-- C5: a sweep of the size-bounded cache first removes every expired
entry; then, while a positive limit is exceeded, evicts remaining entries
oldest-created first until back under the limit. Consequently: no entry of
the swept cache is expired; whenever the recorded size bounds the actual
stored cost from above (which every reachable state satisfies), the stored
cost after a sweep is at most the positive limit; and for entries A, B, C
inserted at times 1 < 2 < 3 with a limit forcing exactly one eviction, the
sweep evicts exactly A. -/
theorem sumCost_nonneg (es : List (String × memoryCacheEntry)) : 0 ≤ sumCost es := by
  induction es with
  | nil => rw [sumCost_nil]
  | cons p es ih =>
    rw [sumCost_cons]
    omega

theorem sumCost_filter_le (q : String × memoryCacheEntry → Bool)
    (es : List (String × memoryCacheEntry)) : sumCost (es.filter q) ≤ sumCost es := by
  have h1 := sumCost_filter_split q es
  have h2 := sumCost_nonneg (es.filter (fun p => !(q p)))
  omega

/-- After a sweep of a cache whose recorded size bounds its stored cost,
the stored cost is at most a positive limit. -/
theorem clean_cost_le_limit (c : memoryCache) (now : Int)
    (hsum : sumCost c.entries ≤ c.size) (hlim : 0 < c.Limit) :
    sumCost (memoryCache.Clean c now).entries ≤ c.Limit := by
  have hsplit := sumCost_filter_split (fun p => decide (now > p.2.exp)) c.entries
  have hK : sumCost (c.entries.filter (fun p => !(decide (now > p.2.exp))))
      ≤ c.size - sumCost (c.entries.filter (fun p => decide (now > p.2.exp))) := by
    omega
  by_cases hcond : c.Limit > 0
      ∧ c.size - sumCost (c.entries.filter (fun p => decide (now > p.2.exp))) > c.Limit
  · have hdefE : (memoryCache.Clean c now).entries
        = (evictOldest c.Limit
            (sortByCt (c.entries.filter (fun p => !(decide (now > p.2.exp)))))
            (c.size - sumCost (c.entries.filter (fun p => decide (now > p.2.exp))))).1 := by
      simp [memoryCache.Clean, hcond]
    rw [hdefE]
    have hsort : sumCost (sortByCt (c.entries.filter (fun p => !(decide (now > p.2.exp)))))
        = sumCost (c.entries.filter (fun p => !(decide (now > p.2.exp)))) :=
      sumCost_perm (sortByCt_perm _)
    have hspec := evictOldest_spec c.Limit
      (sortByCt (c.entries.filter (fun p => !(decide (now > p.2.exp)))))
      (c.size - sumCost (c.entries.filter (fun p => decide (now > p.2.exp))))
      (by rw [hsort]; exact hK)
    rcases hspec.2 with hnil | hlt
    · rw [hnil, sumCost_nil]
      omega
    · have := hspec.1
      omega
  · have hdefE : (memoryCache.Clean c now).entries
        = c.entries.filter (fun p => !(decide (now > p.2.exp))) := by
      simp [memoryCache.Clean, hcond]
    rw [hdefE]
    have hle : c.size - sumCost (c.entries.filter (fun p => decide (now > p.2.exp)))
        ≤ c.Limit := by
      rcases not_and_or.mp hcond with h | h
      · omega
      · omega
    omega

/-- A sweep preserves the bound of the stored cost by the recorded size. -/
theorem clean_cost_le_size (c : memoryCache) (now : Int)
    (hsum : sumCost c.entries ≤ c.size) :
    sumCost (memoryCache.Clean c now).entries ≤ (memoryCache.Clean c now).size := by
  have hsplit := sumCost_filter_split (fun p => decide (now > p.2.exp)) c.entries
  have hK : sumCost (c.entries.filter (fun p => !(decide (now > p.2.exp))))
      ≤ c.size - sumCost (c.entries.filter (fun p => decide (now > p.2.exp))) := by
    omega
  by_cases hcond : c.Limit > 0
      ∧ c.size - sumCost (c.entries.filter (fun p => decide (now > p.2.exp))) > c.Limit
  · have hdefE : (memoryCache.Clean c now).entries
        = (evictOldest c.Limit
            (sortByCt (c.entries.filter (fun p => !(decide (now > p.2.exp)))))
            (c.size - sumCost (c.entries.filter (fun p => decide (now > p.2.exp))))).1 := by
      simp [memoryCache.Clean, hcond]
    have hdefS : (memoryCache.Clean c now).size
        = (evictOldest c.Limit
            (sortByCt (c.entries.filter (fun p => !(decide (now > p.2.exp)))))
            (c.size - sumCost (c.entries.filter (fun p => decide (now > p.2.exp))))).2 := by
      simp [memoryCache.Clean, hcond]
    rw [hdefE, hdefS]
    have hsort : sumCost (sortByCt (c.entries.filter (fun p => !(decide (now > p.2.exp)))))
        = sumCost (c.entries.filter (fun p => !(decide (now > p.2.exp)))) :=
      sumCost_perm (sortByCt_perm _)
    exact (evictOldest_spec c.Limit _ _ (by rw [hsort]; exact hK)).1
  · have hdefE : (memoryCache.Clean c now).entries
        = c.entries.filter (fun p => !(decide (now > p.2.exp))) := by
      simp [memoryCache.Clean, hcond]
    have hdefS : (memoryCache.Clean c now).size
        = c.size - sumCost (c.entries.filter (fun p => decide (now > p.2.exp))) := by
      simp [memoryCache.Clean, hcond]
    rw [hdefE, hdefS]
    exact hK

/-- A Put preserves the bound of the stored cost by the recorded size
(even a replacing Put: the size over-counts, never under-counts). -/
theorem put_cost_le_size (c : memoryCache) (now : Int) (id : String) (buf : List Nat)
    (extra : String) (ttl : Int) (hsum : sumCost c.entries ≤ c.size) :
    sumCost (memoryCache.Put c now id buf extra ttl).2.entries
      ≤ (memoryCache.Put c now id buf extra ttl).2.size := by
  by_cases hcond : c.Limit > 0 ∧ (buf.length : Int) > c.Limit
  · have hdef : (memoryCache.Put c now id buf extra ttl).2 = c := by
      simp [memoryCache.Put, hcond]
    rw [hdef]
    exact hsum
  · have hdefE : (memoryCache.Put c now id buf extra ttl).2.entries
        = updateEnt c.entries id ⟨now, now + ttl, buf, extra⟩ := by
      simp [memoryCache.Put, hcond]
    have hdefS : (memoryCache.Put c now id buf extra ttl).2.size
        = c.size + (buf.length : Int) := by
      simp [memoryCache.Put, hcond]
    rw [hdefE, hdefS]
    have h1 : sumCost (updateEnt c.entries id ⟨now, now + ttl, buf, extra⟩)
        = (buf.length : Int) + sumCost (c.entries.filter (fun p => !(p.1 == id))) := by
      simp [updateEnt, sumCost_cons]
    have h2 := sumCost_filter_le (fun p => !(p.1 == id)) c.entries
    omega

theorem applyOp_Limit (c : memoryCache) (op : CacheOp) :
    (applyOp c op).Limit = c.Limit := by
  cases op with
  | put now id buf extra ttl =>
    by_cases hcond : c.Limit > 0 ∧ (buf.length : Int) > c.Limit <;>
      simp [applyOp, memoryCache.Put, hcond]
  | clean now =>
    by_cases hcond : c.Limit > 0
        ∧ c.size - sumCost (c.entries.filter (fun p => decide (now > p.2.exp))) > c.Limit <;>
      simp [applyOp, memoryCache.Clean, hcond]

theorem applyOp_cost_le_size (c : memoryCache) (op : CacheOp)
    (hsum : sumCost c.entries ≤ c.size) :
    sumCost (applyOp c op).entries ≤ (applyOp c op).size := by
  cases op with
  | put now id buf extra ttl => exact put_cost_le_size c now id buf extra ttl hsum
  | clean now => exact clean_cost_le_size c now hsum

theorem runOps_cost_le_size (ops : List CacheOp) :
    ∀ c : memoryCache, sumCost c.entries ≤ c.size →
      sumCost (runOps c ops).entries ≤ (runOps c ops).size := by
  induction ops with
  | nil => intro c h; exact h
  | cons op rest ih =>
    intro c h
    have hstep : runOps c (op :: rest) = runOps (applyOp c op) rest := rfl
    rw [hstep]
    exact ih (applyOp c op) (applyOp_cost_le_size c op h)

theorem runOps_Limit (ops : List CacheOp) :
    ∀ c : memoryCache, (runOps c ops).Limit = c.Limit := by
  induction ops with
  | nil => intro c; rfl
  | cons op rest ih =>
    intro c
    have hstep : runOps c (op :: rest) = runOps (applyOp c op) rest := rfl
    rw [hstep, ih (applyOp c op), applyOp_Limit]

/-- C5: a sweep of the size-bounded cache first removes every expired
entry; then, while a positive limit is exceeded, evicts remaining entries
oldest-created first until back under the limit. Consequently: no entry of
the swept cache is expired; whenever the recorded size bounds the actual
stored cost from above, the stored cost after a sweep is at most the
positive limit; for every sequence of Put and Clean operations from an
empty cache with a positive limit, a sweep leaves the stored cost at most
the limit; and for entries A, B, C inserted at times 1 < 2 < 3 with a
limit forcing exactly one eviction, the sweep evicts exactly A. -/
theorem C5_clean_sweep :
    (∀ (c : memoryCache) (now : Int),
      ∀ p ∈ (memoryCache.Clean c now).entries, now ≤ p.2.exp)
    ∧ (∀ (c : memoryCache) (now : Int),
        sumCost c.entries ≤ c.size → 0 < c.Limit →
        sumCost (memoryCache.Clean c now).entries ≤ c.Limit)
    ∧ (∀ (L : Int) (ops : List CacheOp) (now : Int), 0 < L →
        sumCost (memoryCache.Clean (runOps ⟨L, 0, [], 0, 0, 0⟩ ops) now).entries ≤ L)
    ∧ (lookupEnt (memoryCache.Clean cABC 4).entries "A" = none
       ∧ lookupEnt (memoryCache.Clean cABC 4).entries "B"
           = some ⟨2, 102, [0, 0, 0, 0], ""⟩
       ∧ lookupEnt (memoryCache.Clean cABC 4).entries "C"
           = some ⟨3, 103, [0, 0, 0, 0], ""⟩
       ∧ (memoryCache.Clean cABC 4).entries.length = 2
       ∧ (memoryCache.Clean cABC 4).size = 8) := by
  refine ⟨?_, ?_, ?_, by decide, by decide, by decide, by decide, by decide⟩
  · intro c now p hp
    by_cases hcond : c.Limit > 0
        ∧ c.size - sumCost (c.entries.filter (fun p => decide (now > p.2.exp))) > c.Limit
    · have hdef : (memoryCache.Clean c now).entries
          = (evictOldest c.Limit
              (sortByCt (c.entries.filter (fun p => !(decide (now > p.2.exp)))))
              (c.size - sumCost (c.entries.filter (fun p => decide (now > p.2.exp))))).1 := by
        simp [memoryCache.Clean, hcond]
      rw [hdef] at hp
      have h1 := evictOldest_mem _ _ _ _ hp
      have h2 := (sortByCt_perm _).mem_iff.mp h1
      have h3 := (List.mem_filter.mp h2).2
      simp at h3
      omega
    · have hdef : (memoryCache.Clean c now).entries
          = c.entries.filter (fun p => !(decide (now > p.2.exp))) := by
        simp [memoryCache.Clean, hcond]
      rw [hdef] at hp
      have h3 := (List.mem_filter.mp hp).2
      simp at h3
      omega
  · intro c now hsum hlim
    exact clean_cost_le_limit c now hsum hlim
  · intro L ops now hL
    have h1 := runOps_cost_le_size ops ⟨L, 0, [], 0, 0, 0⟩ (by rw [sumCost_nil])
    have h2 := runOps_Limit ops ⟨L, 0, [], 0, 0, 0⟩
    have h3 := clean_cost_le_limit (runOps ⟨L, 0, [], 0, 0, 0⟩ ops) now h1
      (by rw [h2]; exact hL)
    rw [h2] at h3
    exact h3

theorem C5_clean_sweep_witness :
    (sumCost (⟨5, 3, [("k", ⟨1, 9, [0, 0, 0], "t"⟩)], 0, 0, 0⟩ : memoryCache).entries
        ≤ (⟨5, 3, [("k", ⟨1, 9, [0, 0, 0], "t"⟩)], 0, 0, 0⟩ : memoryCache).size)
    ∧ (0 : Int) < (⟨5, 3, [("k", ⟨1, 9, [0, 0, 0], "t"⟩)], 0, 0, 0⟩ : memoryCache).Limit
    ∧ sumCost (memoryCache.Clean
        (⟨5, 3, [("k", ⟨1, 9, [0, 0, 0], "t"⟩)], 0, 0, 0⟩ : memoryCache) 2).entries
        ≤ (⟨5, 3, [("k", ⟨1, 9, [0, 0, 0], "t"⟩)], 0, 0, 0⟩ : memoryCache).Limit := by
  refine ⟨by decide, by decide, ?_⟩
  exact C5_clean_sweep.2.1 ⟨5, 3, [("k", ⟨1, 9, [0, 0, 0], "t"⟩)], 0, 0, 0⟩ 2
    (by decide) (by decide)

end Kfwproxy

namespace Kfwproxy

/-! Helper lemmas about the batch cache-control reduction. -/

theorem reduceStep_snd_true (st : Int × Bool) (r : SubResult) (h : st.2 = true) :
    reduceStep st r = st := by
  obtain ⟨a, b⟩ := st
  simp at h
  simp [reduceStep, h]

theorem foldl_reduceStep_of_true (rs : List SubResult) :
    ∀ st : Int × Bool, st.2 = true → rs.foldl reduceStep st = st := by
  induction rs with
  | nil => intro st h; rfl
  | cons r rest ih =>
    intro st h
    rw [List.foldl_cons, reduceStep_snd_true st r h]
    exact ih st h

/-- Once a sub-item with a non-200 status is present, the reduction ends
non-cacheable, whatever the start state. -/
theorem reduce_nonOk (rs : List SubResult) :
    ∀ (st : Int × Bool) (r : SubResult), r ∈ rs → r.code ≠ 200 →
      (rs.foldl reduceStep st).2 = true := by
  induction rs with
  | nil =>
    intro st r h
    exact absurd h (List.not_mem_nil r)
  | cons a as ih =>
    intro st r hmem hcode
    rcases List.mem_cons.mp hmem with heq | htail
    · subst heq
      rw [List.foldl_cons]
      by_cases hst : st.2 = true
      · rw [reduceStep_snd_true st r hst, foldl_reduceStep_of_true as st hst]
        exact hst
      · have hst' : st.2 = false := by
          cases h2 : st.2
          · rfl
          · exact absurd h2 hst
        have hstep : reduceStep st r = (st.1, true) := by
          obtain ⟨x, y⟩ := st
          simp at hst'
          simp [reduceStep, hst', hcode]
        rw [hstep, foldl_reduceStep_of_true as (st.1, true) rfl]
    · rw [List.foldl_cons]
      exact ih (reduceStep st a) r htail hcode

theorem ccParsesTo_ne_empty {s : String} {v : Int} (h : ccParsesTo s v) : s ≠ "" := by
  intro heq
  subst heq
  exact absurd h.2.1 (by decide)

theorem ccStep_char (st : Int × Bool) (s : String) (v : Int) (h : ccParsesTo s v) :
    ccStep st s
      = if v ≤ 0 then (st.1, true) else if v < st.1 then (v, st.2) else st := by
  obtain ⟨-, h1, h2⟩ := h
  simp [ccStep, h1, h2]

theorem reduceStep_char (st : Int × Bool) (r : SubResult) (v : Int)
    (hcode : r.code = 200) (hcc : ccParsesTo r.cc v) (hst : st.2 = false) :
    reduceStep st r
      = if v ≤ 0 then (st.1, true) else if v < st.1 then (v, st.2) else st := by
  have hne : r.cc ≠ "" := ccParsesTo_ne_empty hcc
  obtain ⟨x, y⟩ := st
  simp at hst
  subst hst
  have hbody : reduceStep (x, false) r = (splitComma r.cc).foldl ccStep (x, false) := by
    simp [reduceStep, hcode, hne]
  rw [hbody, hcc.1, List.foldl_cons, List.foldl_nil]
  exact ccStep_char (x, false) r.cc v hcc

/-- With every item a 200 carrying one parsed max-age value, a value at or
below zero forces the non-cacheable outcome. -/
theorem reduce_nonpos (ps : List (SubResult × Int)) :
    ∀ st : Int × Bool,
      (∀ p ∈ ps, p.1.code = 200 ∧ ccParsesTo p.1.cc p.2) →
      (∃ p ∈ ps, p.2 ≤ 0) →
      ((ps.map Prod.fst).foldl reduceStep st).2 = true := by
  induction ps with
  | nil =>
    intro st hall hex
    rcases hex with ⟨p, hp, -⟩
    exact absurd hp (List.not_mem_nil p)
  | cons a as ih =>
    intro st hall hex
    rw [List.map_cons, List.foldl_cons]
    by_cases hst : st.2 = true
    · have h1 : (reduceStep st a.1).2 = true := by
        rw [reduceStep_snd_true st a.1 hst]; exact hst
      rw [foldl_reduceStep_of_true _ _ h1]
      exact h1
    · have hst' : st.2 = false := by
        cases h2 : st.2
        · rfl
        · exact absurd h2 hst
      rcases hex with ⟨p, hp, hple⟩
      rcases List.mem_cons.mp hp with heq | htail
      · subst heq
        have ha := hall p (List.mem_cons_self p as)
        have hstep : reduceStep st p.1 = (st.1, true) := by
          rw [reduceStep_char st p.1 p.2 ha.1 ha.2 hst']
          simp [hple]
        rw [hstep, foldl_reduceStep_of_true _ _ rfl]
      · exact ih (reduceStep st a.1)
          (fun q hq => hall q (List.mem_cons_of_mem a hq)) ⟨p, htail, hple⟩

/-- With every item a 200 carrying one positive parsed max-age value, the
reduction computes the minimum of the start value and all item values and
stays cacheable. -/
theorem reduce_min (ps : List (SubResult × Int)) :
    ∀ a : Int,
      (∀ p ∈ ps, p.1.code = 200 ∧ ccParsesTo p.1.cc p.2) →
      (∀ p ∈ ps, 0 < p.2) →
      (ps.map Prod.fst).foldl reduceStep (a, false)
        = (ps.foldl (fun acc p => min acc p.2) a, false) := by
  induction ps with
  | nil => intro a hall hpos; rfl
  | cons q qs ih =>
    intro a hall hpos
    rw [List.map_cons, List.foldl_cons, List.foldl_cons]
    have hq := hall q (List.mem_cons_self q qs)
    have hqpos := hpos q (List.mem_cons_self q qs)
    have hstep : reduceStep (a, false) q.1 = (min a q.2, false) := by
      rw [reduceStep_char (a, false) q.1 q.2 hq.1 hq.2 rfl]
      have hnp : ¬ q.2 ≤ 0 := not_le.mpr hqpos
      rw [if_neg hnp]
      by_cases hlt : q.2 < a
      · rw [if_pos hlt, min_eq_right (le_of_lt hlt)]
      · rw [if_neg hlt, min_eq_left (not_lt.mp hlt)]
    rw [hstep]
    exact ih (min a q.2)
      (fun p hp => hall p (List.mem_cons_of_mem q hp))
      (fun p hp => hpos p (List.mem_cons_of_mem q hp))

/-- C6: the batch lifetime reduction starts from the endpoint's default
TTL in seconds; any sub-item status other than 200 makes the batch
non-cacheable; with all items 200 and each carrying a parsed max-age
directive, a value at or below zero makes it non-cacheable, and otherwise
the final batch max-age is the minimum of the start value and every item
value — in particular items with max-age 300, 100, 500 under a 900-second
default reduce to 100. -/
theorem C6_batch_reduction :
    (∀ (ttl0 : Int) (rs : List SubResult) (r : SubResult), r ∈ rs → r.code ≠ 200 →
      (reduceItems ttl0 rs).2 = true)
    ∧ (∀ (ttl0 : Int) (ps : List (SubResult × Int)),
        (∀ p ∈ ps, p.1.code = 200 ∧ ccParsesTo p.1.cc p.2) →
        ((∃ p ∈ ps, p.2 ≤ 0) → (reduceItems ttl0 (ps.map Prod.fst)).2 = true)
        ∧ ((∀ p ∈ ps, 0 < p.2) →
            reduceItems ttl0 (ps.map Prod.fst)
              = (ps.foldl (fun acc p => min acc p.2) ttl0, false)))
    ∧ reduceItems 900
        [⟨200, "max-age=300", ""⟩, ⟨200, "max-age=100", ""⟩, ⟨200, "max-age=500", ""⟩]
        = (100, false) := by
  refine ⟨?_, ?_, by decide⟩
  · intro ttl0 rs r hmem hcode
    exact reduce_nonOk rs (ttl0, false) r hmem hcode
  · intro ttl0 ps hall
    exact ⟨fun hex => reduce_nonpos ps (ttl0, false) hall hex,
           fun hpos => reduce_min ps ttl0 hall hpos⟩

theorem C6_batch_reduction_witness :
    (⟨404, "", "nf"⟩ : SubResult) ∈ [(⟨404, "", "nf"⟩ : SubResult)]
    ∧ ((404 : Int) ≠ 200)
    ∧ (reduceItems 900 [(⟨404, "", "nf"⟩ : SubResult)]).2 = true := by
  refine ⟨List.mem_cons_self _ _, by decide, ?_⟩
  exact C6_batch_reduction.1 900 [⟨404, "", "nf"⟩] ⟨404, "", "nf"⟩
    (List.mem_cons_self _ _) (by decide)

end Kfwproxy

namespace Kfwproxy

/-- C7: the batch endpoint rejects with 400 when the sub-path list is
empty, with 403 when it holds more than 20 sub-paths, and with 403 —
independently of the dispatcher, so no nested sub-request can influence
the outcome — when the request context already carries the in-batch
recursion marker; in each case no items are produced. -/
theorem C7_batch_limits :
    ∀ (ttl now : Int) (dispatch : String → SubResult) (xs : List String) (hd : String),
      ((batchHandler ttl now dispatch false [] hd).status = 400
        ∧ (batchHandler ttl now dispatch false [] hd).items = [])
      ∧ (xs.length > 20 →
          (batchHandler ttl now dispatch false xs hd).status = 403
          ∧ (batchHandler ttl now dispatch false xs hd).items = [])
      ∧ ((batchHandler ttl now dispatch true xs hd).status = 403
        ∧ (batchHandler ttl now dispatch true xs hd).items = []
        ∧ ∀ dispatch' : String → SubResult,
            batchHandler ttl now dispatch true xs hd
              = batchHandler ttl now dispatch' true xs hd) := by
  intro ttl now dispatch xs hd
  refine ⟨⟨?_, ?_⟩, ?_, ?_, ?_, ?_⟩
  · simp [batchHandler]
  · simp [batchHandler]
  · intro hlen
    have h0 : ¬ xs.length = 0 := by omega
    constructor
    · simp [batchHandler, h0, hlen]
    · simp [batchHandler, h0, hlen]
  · simp [batchHandler]
  · simp [batchHandler]
  · intro dispatch'
    rfl

theorem C7_batch_limits_witness :
    (List.replicate 21 "a").length > 20
    ∧ (batchHandler 900 0 (fun _ => ⟨200, "", ""⟩) false (List.replicate 21 "a") "").status
        = 403 := by
  refine ⟨by decide, ?_⟩
  exact ((C7_batch_limits 900 0 (fun _ => ⟨200, "", ""⟩) (List.replicate 21 "a") "").2.1
    (by decide)).1

/-- C10: once the batch endpoint's validation passes (recursion marker
unset, a non-empty list of at most 20 sub-paths, and an h parameter that
is empty or "1"), the envelope status is 200 for every dispatcher — each
sub-request's outcome, failing or not, is recorded only in the per-item
results. -/
theorem C10_batch_envelope_200 :
    ∀ (ttl now : Int) (dispatch : String → SubResult) (xs : List String) (hd : String),
      0 < xs.length → xs.length ≤ 20 → (hd = "" ∨ hd = "1") →
      (batchHandler ttl now dispatch false xs hd).status = 200
      ∧ (batchHandler ttl now dispatch false xs hd).items
          = xs.map (fun x => dispatch ("/api.kobobooks.com/" ++ trimOneSlash x)) := by
  intro ttl now dispatch xs hd hpos hle hhd
  have h0 : ¬ xs.length = 0 := by omega
  have h20 : ¬ xs.length > 20 := by omega
  have hh : ¬ (hd ≠ "" ∧ hd ≠ "1") := by
    rcases hhd with h | h
    · exact fun hc => hc.1 h
    · exact fun hc => hc.2 h
  have hdef : batchHandler ttl now dispatch false xs hd
      = (if (reduceItems ttl
              (xs.map (fun x => dispatch ("/api.kobobooks.com/" ++ trimOneSlash x)))).2 = true
         then ⟨200, xs.map (fun x => dispatch ("/api.kobobooks.com/" ++ trimOneSlash x)),
               some "no-cache", some "no-cache", some "0"⟩
         else ⟨200, xs.map (fun x => dispatch ("/api.kobobooks.com/" ++ trimOneSlash x)),
               some ("max-age=" ++ toString (reduceItems ttl
                 (xs.map (fun x => dispatch ("/api.kobobooks.com/" ++ trimOneSlash x)))).1),
               none,
               some (fmtTime (now + (reduceItems ttl
                 (xs.map (fun x => dispatch ("/api.kobobooks.com/" ++ trimOneSlash x)))).1))⟩) := by
    simp [batchHandler, h0, h20, hh]
  constructor
  · rw [hdef]
    split
    · rfl
    · rfl
  · rw [hdef]
    split
    · rfl
    · rfl

theorem C10_batch_envelope_200_witness :
    0 < (["a"] : List String).length
    ∧ (["a"] : List String).length ≤ 20
    ∧ (("" : String) = "" ∨ ("" : String) = "1")
    ∧ (batchHandler 900 0 (fun _ => ⟨502, "", "bad gateway"⟩) false ["a"] "").status = 200 := by
  refine ⟨by decide, by decide, Or.inl rfl, ?_⟩
  exact (C10_batch_envelope_200 900 0 (fun _ => ⟨502, "", "bad gateway"⟩) ["a"] ""
    (by decide) (by decide) (Or.inl rfl)).1

end Kfwproxy

namespace Kfwproxy

/-- C4: the claim that every written max-age equals the entry's remaining
lifetime fails on proxy.go, whose handler computes
`time.Now().Sub(exp).Seconds()` — the negation of the remaining lifetime —
on both its cache-hit and store-success paths: a hit on an entry with 60
units of life left is served max-age=-60. The newer ProxyHandler
(part_007) computes `exp.Sub(time.Now())` as the claim states, and its
value shrinks as the entry ages. -/
theorem C4_max_age_negated :
    (proxyHandler 0 Method.GET (some ([1], "ct", 60, 5)) none (0, false)).cacheControl
        = some "max-age=-60"
    ∧ (ServeHTTP 0 Method.GET true (some ([1], "h", 60, 5)) none (0, false) 900).cacheControl
        = some "max-age=60"
    ∧ (proxyHandler 0 Method.GET none (some (200, [1], "ct")) (60, true)).cacheControl
        = some "max-age=-60"
    ∧ proxyHitMaxAge 0 60 = -(60 - 0)
    ∧ serveMaxAge 0 60 = 60 - 0
    ∧ serveMaxAge 30 60 < serveMaxAge 0 60 := by
  refine ⟨by decide, by decide, by decide, by decide, by decide, by decide⟩

/-- C8 counterexample: when the cache rejects the store of a fresh 200
response, ProxyHandler.ServeHTTP marks the response "nospace" — a fourth
marker value outside the claimed set {"new", "no", creation timestamp} —
and even emits a max-age for it; the response itself is still served. -/
theorem C8_marker_nospace :
    (ServeHTTP 0 Method.GET true none (some (200, [1, 2, 3])) (0, false) 900).marker
        = some "nospace"
    ∧ (ServeHTTP 0 Method.GET true none (some (200, [1, 2, 3])) (0, false) 900).marker
        ≠ some "new"
    ∧ (ServeHTTP 0 Method.GET true none (some (200, [1, 2, 3])) (0, false) 900).marker
        ≠ some "no"
    ∧ (ServeHTTP 0 Method.GET true none (some (200, [1, 2, 3])) (0, false) 900).body
        = [1, 2, 3]
    ∧ (ServeHTTP 0 Method.GET true none (some (200, [1, 2, 3])) (0, false) 900).status
        = 200
    ∧ (ServeHTTP 0 Method.GET true none (some (200, [1, 2, 3])) (0, false) 900).cacheControl
        = some "max-age=900" := by
  refine ⟨by decide, by decide, by decide, by decide, by decide, by decide⟩

/-- C8 amended: on every GET/HEAD response of ProxyHandler.ServeHTTP the
marker header is one of exactly four values — "new" (just stored), "no"
(not cacheable), "nospace" (store rejected), or the cached entry's
creation timestamp on a hit — or absent on the bad-gateway error path; and
when the cache rejects the store, the response is still served with its
upstream status and body, marked "nospace". -/
theorem C8_marker_values_amended :
    (∀ (now : Int) (m : Method) (cc : Bool)
       (cres : Option (List Nat × String × Int × Int))
       (up : Option (Int × List Nat)) (put : Int × Bool) (ttl : Int),
      (ServeHTTP now m cc cres up put ttl).marker = none
      ∨ (ServeHTTP now m cc cres up put ttl).marker = some "new"
      ∨ (ServeHTTP now m cc cres up put ttl).marker = some "no"
      ∨ (ServeHTTP now m cc cres up put ttl).marker = some "nospace"
      ∨ (∃ e, cc = true ∧ cres = some e
          ∧ (ServeHTTP now m cc cres up put ttl).marker = some (fmtTime e.2.2.2)))
    ∧ (∀ (now : Int) (m : Method) (ub : List Nat) (put : Int × Bool) (ttl : Int),
        put.2 = false →
        (ServeHTTP now m true none (some (200, ub)) put ttl).marker = some "nospace"
        ∧ (ServeHTTP now m true none (some (200, ub)) put ttl).status = 200
        ∧ (m = Method.GET → (ServeHTTP now m true none (some (200, ub)) put ttl).body = ub)
        ∧ (ServeHTTP now m true none (some (200, ub)) put ttl).cacheControl
            = some ("max-age=" ++ toString (serveMaxAge now (now + ttl)))) := by
  constructor
  · intro now m cc cres up put ttl
    cases cc with
    | false =>
      cases up with
      | none => exact Or.inl (by cases cres <;> rfl)
      | some u =>
        refine Or.inr (Or.inr (Or.inl ?_))
        cases cres <;> simp [ServeHTTP, serveWrite]
    | true =>
      cases cres with
      | some r =>
        exact Or.inr (Or.inr (Or.inr (Or.inr ⟨r, rfl, rfl, rfl⟩)))
      | none =>
        cases up with
        | none => exact Or.inl rfl
        | some u =>
          by_cases h200 : u.1 = 200
          · by_cases hput : put.2 = true
            · refine Or.inr (Or.inl ?_)
              simp [ServeHTTP, serveWrite, h200, hput]
            · refine Or.inr (Or.inr (Or.inr (Or.inl ?_)))
              simp [ServeHTTP, serveWrite, h200, hput]
          · refine Or.inr (Or.inr (Or.inl ?_))
            simp [ServeHTTP, serveWrite, h200]
  · intro now m ub put ttl hput
    refine ⟨?_, ?_, ?_, ?_⟩
    · simp [ServeHTTP, serveWrite, hput]
    · simp [ServeHTTP, serveWrite, hput]
    · intro hm
      subst hm
      simp [ServeHTTP, serveWrite, hput]
    · simp [ServeHTTP, serveWrite, hput]

theorem C8_marker_values_amended_witness :
    ((0, false) : Int × Bool).2 = false
    ∧ (ServeHTTP 0 Method.GET true none (some (200, [9])) (0, false) 30).marker
        = some "nospace"
    ∧ (ServeHTTP 0 Method.GET true none (some (200, [9])) (0, false) 30).body = [9] := by
  have h := C8_marker_values_amended.2 0 Method.GET [9] (0, false) 30 rfl
  exact ⟨rfl, h.1, h.2.2.1 rfl⟩

/-- C9 counterexample: the older proxyHandler's cache-hit path writes the
cached body with w.Write(buf) regardless of the method and never sets a
Content-Length there, so a HEAD request served from a cache hit emits a
non-empty body at the handler level, contrary to the claim. -/
theorem C9_head_hit_body :
    (proxyHandler 0 Method.HEAD (some ([5, 6, 7], "ct", 60, 1)) none (0, false)).body
        = [5, 6, 7]
    ∧ (proxyHandler 0 Method.HEAD (some ([5, 6, 7], "ct", 60, 1)) none (0, false)).body ≠ []
    ∧ (proxyHandler 0 Method.GET (some ([5, 6, 7], "ct", 60, 1)) none (0, false)).contentLength
        = none := by
  refine ⟨by decide, by decide, by decide⟩

/-- Reduction of ServeHTTP on the upstream path (no cache hit), exposing
its conditional structure for case analysis. -/
theorem ServeHTTP_upstream (now : Int) (m : Method) (cc : Bool) (u : Int × List Nat)
    (put : Int × Bool) (ttl : Int) :
    ServeHTTP now m cc none (some u) put ttl
      = (if u.1 = 200 ∧ cc = true then
           (if put.2 = true then serveWrite now m u.1 u.2 "new" put.1
            else serveWrite now m u.1 u.2 "nospace" (now + ttl))
         else serveWrite now m u.1 u.2 "no" 0) := by
  cases cc
  · rfl
  · rfl

/-- C9 amended: in ProxyHandler.ServeHTTP a HEAD request never emits a
body, and both on a cache hit and on the upstream path it writes
Content-Length 0 with the real status, while GET emits the full body with
Content-Length equal to its byte length. The older proxyHandler does the
same on its upstream path, but its cache-hit path writes the body
unconditionally and sets no Content-Length (relying on the HTTP framework
to suppress HEAD bodies on the wire). -/
theorem C9_write_semantics_amended :
    (∀ (now : Int) (cc : Bool) (cres : Option (List Nat × String × Int × Int))
       (up : Option (Int × List Nat)) (put : Int × Bool) (ttl : Int),
      (ServeHTTP now Method.HEAD cc cres up put ttl).body = [])
    ∧ (∀ (now : Int) (e : List Nat × String × Int × Int) (put : Int × Bool) (ttl : Int),
        (ServeHTTP now Method.HEAD true (some e) none put ttl).status = 200
        ∧ (ServeHTTP now Method.HEAD true (some e) none put ttl).contentLength = some "0"
        ∧ (ServeHTTP now Method.GET true (some e) none put ttl).body = e.1
        ∧ (ServeHTTP now Method.GET true (some e) none put ttl).contentLength
            = some (toString e.1.length))
    ∧ (∀ (now : Int) (cc : Bool) (u : Int × List Nat) (put : Int × Bool) (ttl : Int),
        (ServeHTTP now Method.HEAD cc none (some u) put ttl).status = u.1
        ∧ (ServeHTTP now Method.HEAD cc none (some u) put ttl).contentLength = some "0"
        ∧ (ServeHTTP now Method.GET cc none (some u) put ttl).body = u.2
        ∧ (ServeHTTP now Method.GET cc none (some u) put ttl).contentLength
            = some (toString u.2.length))
    ∧ (∀ (now : Int) (m : Method) (u : Int × List Nat × String) (put : Int × Bool),
        (m = Method.HEAD → (proxyHandler now m none (some u) put).body = [])
        ∧ (m = Method.GET → (proxyHandler now m none (some u) put).body = u.2.1)
        ∧ (proxyHandler now m none (some u) put).contentLength
            = some (toString u.2.1.length)
        ∧ (proxyHandler now m none (some u) put).status = u.1) := by
  refine ⟨?_, ?_, ?_, ?_⟩
  · intro now cc cres up put ttl
    cases cc with
    | false =>
      cases up with
      | none => cases cres <;> rfl
      | some u => cases cres <;> simp [ServeHTTP, serveWrite]
    | true =>
      cases cres with
      | some r => rfl
      | none =>
        cases up with
        | none => rfl
        | some u =>
          rw [ServeHTTP_upstream]
          split
          · split
            · rfl
            · rfl
          · rfl
  · intro now e put ttl
    exact ⟨rfl, rfl, rfl, rfl⟩
  · intro now cc u put ttl
    refine ⟨?_, ?_, ?_, ?_⟩ <;>
      · rw [ServeHTTP_upstream]
        split
        · split
          · rfl
          · rfl
        · rfl
  · intro now m u put
    refine ⟨?_, ?_, ?_, ?_⟩
    · intro hm
      subst hm
      simp only [proxyHandler]
      split
      · split
        · rfl
        · rfl
      · rfl
    · intro hm
      subst hm
      simp only [proxyHandler]
      split
      · split
        · rfl
        · rfl
      · rfl
    · simp only [proxyHandler]
      split
      · split
        · rfl
        · rfl
      · rfl
    · simp only [proxyHandler]
      split
      · split
        · rfl
        · rfl
      · rfl

theorem C9_write_semantics_amended_witness :
    (Method.HEAD = Method.HEAD)
    ∧ (proxyHandler 0 Method.HEAD none (some (200, [1, 2], "ct")) (60, true)).body = []
    ∧ (proxyHandler 0 Method.HEAD none (some (200, [1, 2], "ct")) (60, true)).contentLength
        = some "2" := by
  have h := C9_write_semantics_amended.2.2.2 0 Method.HEAD (200, [1, 2], "ct") (60, true)
  exact ⟨rfl, h.1 rfl, by simpa using h.2.2.1⟩

end Kfwproxy
